import Mathlib

/-!
Verification of the NyaaySahayak retrieval core.

This file gives a shallow embedding, in Lean, of the retrieval subsystem of
the repository:

* `backend/chunking/legal_chunker.py` — `LegalChunker._split_by_sections` and
  `LegalChunker.chunk_text` (section splitting, greedy token packing, backward
  overlap stitching);
* `backend/vectorstore/faiss_store.py` — `FAISSVectorStore.add_document_chunks`
  and `FAISSVectorStore.similarity_search` (ephemeral FAISS index plus
  relational chunk rows keyed by `faiss_index_id`);
* `backend/vectorstore/postgres_store.py` — `PostgresVectorStore.add_document_chunks`
  and `PostgresVectorStore.similarity_search` (persistent pgvector store);
* `backend/vectorstore/vector_manager.py` — `VectorManager.add_user_documents`,
  `VectorManager.add_general_documents` and `VectorManager.search` (hybrid merge).

Texts are modelled as `List Char` (Python `str`), embedding vectors as
`List Int` (the concrete float values never matter for the properties below;
the embedder is an explicit function parameter, as the embedding model is an
external collaborator).  Database sessions are modelled by explicit state
passing; a fallible commit is modelled by an explicit success flag or by the
dimension check that the pgvector column performs, and a raised exception is
an `Option StoreErr` result alongside the post-call state.
-/

/-! ## Python string primitives -/

/-- Characters treated as whitespace by Python's `str.strip` and `\s`
(ASCII range: space, tab, newline, carriage return, vertical tab, form feed). -/
def wsChar (c : Char) : Bool :=
  c = ' ' || c = '\t' || c = '\n' || c = '\r' || c = '\x0b' || c = '\x0c'

/-- ASCII decimal digit, Python regex `\d` on ASCII input. -/
def isDigitC (c : Char) : Bool := '0' ≤ c && c ≤ '9'

/-- Remove the maximal trailing run of characters satisfying `p` (right strip). -/
def dropTrail (p : Char → Bool) : List Char → List Char
  | [] => []
  | c :: cs =>
    match dropTrail p cs with
    | [] => if p c then [] else [c]
    | r => c :: r

/-- Python `str.strip()`: remove leading and trailing whitespace. -/
def pyStrip (l : List Char) : List Char := dropTrail wsChar (l.dropWhile wsChar)

/-- Python slice `s[-n:]`.  Note Python's edge case: `s[-0:]` is the whole
string, not the empty string. -/
def pySliceLast (n : Nat) (l : List Char) : List Char :=
  if n = 0 then l else l.drop (l.length - n)

/-- Two newline characters, the separator `"\n\n"` used by the chunker. -/
def nl2 : List Char := ['\n', '\n']

/-! ## The section-marker regex

`legal_chunker.py` line 28:
`pattern = r"(SECTION\s+\d+|Section\s+\d+|CLAUSE\s+\d+|Clause\s+\d+)"`.

The pattern is a literal keyword in one of four exact casings, followed by one
or more whitespace characters and one or more digits.  The character classes
`\s` and `\d` are disjoint, so the greedy match is: the keyword, then the
maximal whitespace run (at least one), then the maximal digit run (at least
one); backtracking can never produce a different match. -/

/-- If `kw` is a prefix of `l`, return the remainder. -/
def stripPrefixStr : List Char → List Char → Option (List Char)
  | [], l => some l
  | _ :: _, [] => none
  | k :: ks, c :: cs => if k = c then stripPrefixStr ks cs else none

/-- Maximal non-empty run of characters satisfying `p`:
`(run, rest)` with `run ≠ []`, or `none` if the first character fails `p`. -/
def takeRun1 (p : Char → Bool) (l : List Char) : Option (List Char × List Char) :=
  match l.takeWhile p with
  | [] => none
  | t => some (t, l.dropWhile p)

/-- Match one alternative `kw\s+\d+` at the start of `l`; on success return
`(matched text, rest)`. -/
def matchKwNum (kw : List Char) (l : List Char) : Option (List Char × List Char) :=
  match stripPrefixStr kw l with
  | none => none
  | some r1 =>
    match takeRun1 wsChar r1 with
    | none => none
    | some (w, r2) =>
      match takeRun1 isDigitC r2 with
      | none => none
      | some (d, r3) => some (kw ++ w ++ d, r3)

def kwSECTION : List Char := "SECTION".data
def kwSection : List Char := "Section".data
def kwCLAUSE : List Char := "CLAUSE".data
def kwClause : List Char := "Clause".data

/-- Match the full pattern at the start of `l`, trying the four alternatives in
the order they appear in the source pattern (Python `re.match`). -/
def matchPatternAt (l : List Char) : Option (List Char × List Char) :=
  match matchKwNum kwSECTION l with
  | some r => some r
  | none =>
    match matchKwNum kwSection l with
    | some r => some r
    | none =>
      match matchKwNum kwCLAUSE l with
      | some r => some r
      | none => matchKwNum kwClause l

/-- A string that starts with a full pattern match, decomposed into its
keyword (one of the four exact casings of the source pattern), whitespace
run, digit run and remainder; the remainder must not start with a digit
(greediness of `\d+`). -/
def MarkerSeed (b : List Char) : Prop :=
  ∃ kw w d r,
    (kw = kwSECTION ∨ kw = kwSection ∨ kw = kwCLAUSE ∨ kw = kwClause)
    ∧ b = kw ++ (w ++ (d ++ r))
    ∧ w ≠ [] ∧ d ≠ []
    ∧ (∀ c ∈ w, wsChar c = true)
    ∧ (∀ c ∈ d, isDigitC c = true)
    ∧ (∀ a as, r = a :: as → isDigitC a = false)

/-- `re.split(pattern, text)` with a capturing group: the list of parts,
alternating text-between-matches and matched delimiters (both kept, possibly
empty at the ends).  `fuel` bounds the recursion; each step consumes at least
one character, so `fuel = length + 1` is always enough. -/
def reSplitGo : Nat → List Char → List Char → List (List Char)
  | 0, acc, l => [acc.reverse ++ l]
  | _ + 1, acc, [] => [acc.reverse]
  | fuel + 1, acc, c :: cs =>
    match matchPatternAt (c :: cs) with
    | some (m, rest) => acc.reverse :: m :: reSplitGo fuel [] rest
    | none => reSplitGo fuel (c :: acc) cs

def reSplit (l : List Char) : List (List Char) := reSplitGo (l.length + 1) [] l

/-! ## `LegalChunker._split_by_sections` (lines 24–45) -/

/-- The buffer loop of `_split_by_sections`: for each part, if it matches the
pattern at its start (`re.match`), flush the stripped buffer (when non-empty)
and seed a new buffer with the part; otherwise append `"\n" + part` to the
buffer.  The final stripped buffer is flushed when non-empty. -/
def assembleGo : List (List Char) → List Char → List (List Char)
  | [], buf => if pyStrip buf ≠ [] then [pyStrip buf] else []
  | p :: ps, buf =>
    if (matchPatternAt p).isSome then
      (if pyStrip buf ≠ [] then [pyStrip buf] else []) ++ assembleGo ps p
    else
      assembleGo ps (buf ++ '\n' :: p)

/-- `LegalChunker._split_by_sections`. -/
def splitBySections (text : List Char) : List (List Char) :=
  assembleGo (reSplit text) []

/-! ## `LegalChunker.chunk_text` (lines 47–99)

The chunker is parametrised by the token counter `tok` (the source fixes
`tiktoken.encoding_for_model("gpt-3.5-turbo")`; the spec treats tokenization
as a pluggable deterministic capability, and only the counts matter), the
token budget `chunkSize` and the character overlap `chunkOverlap`. -/

/-- State of the greedy packing loop.  `cur`/`curTok` are the source's
`current_chunk`/`current_tokens`; `curSecs` is ghost bookkeeping recording the
sections concatenated into `cur`, and `acc` the emitted
`(chunk text, constituent sections)` pairs. -/
structure PackSt where
  cur : List Char
  curSecs : List (List Char)
  curTok : Nat
  acc : List (List Char × List (List Char))

/-- The packing loop of `chunk_text` (lines 55–82).  The first components of
the emitted pairs are computed exactly as in the source; the second components
are ghost data used only to state the budget invariant. -/
def packGo (tok : List Char → Nat) (chunkSize : Nat) :
    List (List Char) → PackSt → List (List Char × List (List Char))
  | [], st =>
    if pyStrip st.cur ≠ [] then st.acc ++ [(pyStrip st.cur, st.curSecs)] else st.acc
  | s :: ss, st =>
    if st.curTok + tok s ≤ chunkSize then
      if st.cur ≠ [] then
        packGo tok chunkSize ss
          { cur := st.cur ++ nl2 ++ s, curSecs := st.curSecs ++ [s],
            curTok := st.curTok + tok s, acc := st.acc }
      else
        packGo tok chunkSize ss
          { cur := s, curSecs := [s], curTok := st.curTok + tok s, acc := st.acc }
    else
      let acc' :=
        if pyStrip st.cur ≠ [] then st.acc ++ [(pyStrip st.cur, st.curSecs)] else st.acc
      packGo tok chunkSize ss { cur := s, curSecs := [s], curTok := tok s, acc := acc' }

/-- Greedy token packing of a section list, with the constituent sections of
each emitted chunk recorded alongside it. -/
def packPairs (tok : List Char → Nat) (chunkSize : Nat)
    (sections : List (List Char)) : List (List Char × List (List Char)) :=
  packGo tok chunkSize sections ⟨[], [], 0, []⟩

/-- The emitted pre-overlap chunk texts (the source's `chunks` list, text
fields only). -/
def packSections (tok : List Char → Nat) (chunkSize : Nat)
    (sections : List (List Char)) : List (List Char) :=
  (packPairs tok chunkSize sections).map Prod.fst

/-- The backward-overlap loop (lines 84–99), after the first chunk: each
emitted chunk is `final_chunks[-1]["text"][-chunk_overlap:] + "\n\n" + chunk`.
Note `final_chunks[-1]` is the *previous final chunk, overlap already
attached*. -/
def addOvGo (chunkOverlap : Nat) (prev : List Char) : List (List Char) → List (List Char)
  | [] => []
  | c :: cs =>
    let m := pySliceLast chunkOverlap prev ++ nl2 ++ c
    m :: addOvGo chunkOverlap m cs

/-- Backward overlap stitching: the first chunk is kept unchanged, every later
chunk is prefixed with the tail of the previously *emitted* chunk. -/
def addOverlap (chunkOverlap : Nat) : List (List Char) → List (List Char)
  | [] => []
  | c :: cs => c :: addOvGo chunkOverlap c cs

/-- A chunk record `{"text": ..., "metadata": ...}` as returned by
`chunk_text`.  The metadata type is a parameter: the source attaches the very
same dictionary object to every chunk, so in the model every chunk carries the
same metadata value (for the aliasing claim this value is a heap reference). -/
structure ChunkD (μ : Type) where
  text : List Char
  metadata : μ
deriving DecidableEq

/-- `LegalChunker.chunk_text`: split into sections, greedily pack by token
budget, stitch backward overlap, attach the caller's metadata to every chunk. -/
def chunkText (tok : List Char → Nat) (chunkSize chunkOverlap : Nat)
    (text : List Char) (meta : μ) : List (ChunkD μ) :=
  (addOverlap chunkOverlap (packSections tok chunkSize (splitBySections text))).map
    (fun t => ⟨t, meta⟩)

/-- Character-count tokenizer used to instantiate concrete scenarios (any
deterministic tokenizer is admissible per the spec). -/
def lenTok (l : List Char) : Nat := l.length

/-! ## Data model (`backend/db/models.py`)

Vectors are `List Int`; the pgvector column is declared `Vector(1024)`
(`models.py` line 25), so the persistent store accepts exactly
dimension-1024 vectors. -/

/-- Embedding vector. -/
abbrev Vec := List Int

/-- The fixed vector-column dimension `D` (`Vector(1024)` in `models.py`). -/
def embDim : Nat := 1024

/-- Python dict with string keys and string values, as used for document
metadata (`{"filename": ..., "source_type": ..., ...}`).  Assignment updates
an existing key in place or appends a new one. -/
abbrev Dict := List (List Char × List Char)

def dictGet (d : Dict) (k : List Char) : Option (List Char) :=
  (d.find? (fun p => p.1 = k)).map Prod.snd

def dictSet (d : Dict) (k v : List Char) : Dict :=
  if d.any (fun p => p.1 = k) then
    d.map (fun p => if p.1 = k then (k, v) else p)
  else
    d ++ [(k, v)]

/-- A `documents` row (`Document` in `models.py`): the fields taken from the
metadata dict by both stores' `add_document_chunks`. -/
structure DocRow where
  id : Nat
  filename : Option (List Char)
  source_type : Option (List Char)
  language : Option (List Char)
  jurisdiction : List Char
deriving DecidableEq

/-- Build the `Document` record exactly as both stores do:
`document_metadata.get("filename")`, … , `.get("jurisdiction", "Unknown")`. -/
def mkDocRow (meta : Dict) (id : Nat) : DocRow :=
  { id := id
    filename := dictGet meta "filename".data
    source_type := dictGet meta "source_type".data
    language := dictGet meta "language".data
    jurisdiction := (dictGet meta "jurisdiction".data).getD "Unknown".data }

/-- Errors raised by the stores (Python exceptions, made explicit).
`notNullViolation` is the IntegrityError raised by committing a `Document`
whose `filename` is `None` — `models.py` line 12 declares
`filename = Column(String, nullable=False)`. -/
inductive StoreErr where
  | notNullViolation
  | dimensionMismatch
  | rowCommitFailed
deriving DecidableEq

/-! ## Ephemeral store (`backend/vectorstore/faiss_store.py`)

`FAISSVectorStore` owns an in-memory FAISS `IndexFlatIP` (modelled as the
append-only list `vectors`) and writes relational `Chunk` rows through a
SQLAlchemy session (modelled as the `rows` list plus `docs`).  The second
`db.commit()` — the one that persists the chunk rows (line 70) — can fail like
any database commit; whether it succeeds is the explicit `rowCommitOk` flag.
A raised exception is returned as `some err` next to the post-call state. -/

/-- A relational `chunks` row as written by the ephemeral path: `document_id`,
`faiss_index_id`, `text` (`faiss_store.py` lines 61–67).  `faiss_index_id` is
an `Int` so that FAISS's `-1` padding of search results can never match. -/
structure ERow where
  document_id : Nat
  faiss_index_id : Int
  text : List Char
deriving DecidableEq

/-- State owned by the ephemeral path: the FAISS vector list plus the
relational tables it writes. -/
structure EphState where
  vectors : List Vec
  docs : List DocRow
  rows : List ERow
  nextDocId : Nat
deriving DecidableEq

def emptyEph : EphState := ⟨[], [], [], 0⟩

/-- `FAISSVectorStore.add_document_chunks` (lines 25–71): commit a `Document`
row, embed the chunk texts, read `start_index = self.index.ntotal`, append the
embeddings to the index, then insert one `Chunk` row per chunk with
`faiss_index_id = start_index + i` and commit.  The first `db.commit()`
raises an IntegrityError when the metadata carries no `filename`
(`documents.filename` is NOT NULL): the exception propagates before
`index.add` is reached and nothing changes.  If instead the second commit
fails, the exception propagates with the FAISS append not rolled back and no
chunk row persisted. -/
def faissAddDocumentChunks (embedD : List Char → Vec) (rowCommitOk : Bool)
    (s : EphState) (chunks : List (ChunkD μ)) (meta : Dict) :
    EphState × Option StoreErr :=
  if (dictGet meta "filename".data).isSome then
    let doc := mkDocRow meta s.nextDocId
    let s1 : EphState :=
      { s with docs := s.docs ++ [doc], nextDocId := s.nextDocId + 1 }
    let embeddings := chunks.map (fun c => embedD c.text)
    let startIndex := s1.vectors.length
    let s2 : EphState := { s1 with vectors := s1.vectors ++ embeddings }
    let newRows := (List.range chunks.length).map (fun i =>
      ({ document_id := doc.id
         faiss_index_id := Int.ofNat (startIndex + i)
         text := ((chunks.get? i).map ChunkD.text).getD [] } : ERow))
    if rowCommitOk then
      ({ s2 with rows := s2.rows ++ newRows }, none)
    else
      (s2, some StoreErr.rowCommitFailed)
  else
    (s, some StoreErr.notNullViolation)

/-- Inner product, the `IndexFlatIP` similarity. -/
def innerProd (a b : Vec) : Int := (List.zipWith (· * ·) a b).sum

/-- Index of the best-scoring vector not yet selected: maximal inner product
with `qe`, ties resolved towards the smaller index. -/
def bestIdx (vecs : List Vec) (qe : Vec) (used : List Nat) : Option Nat :=
  (List.range vecs.length).foldl
    (fun best i =>
      if used.contains i then best
      else
        match best with
        | none => some i
        | some j =>
          if innerProd ((vecs.get? i).getD []) qe > innerProd ((vecs.get? j).getD []) qe
          then some i else some j)
    none

/-- FAISS top-`k` search over the flat index: always returns exactly `k`
entries, padding with `-1` when fewer than `k` vectors are stored. -/
def faissTopK (vecs : List Vec) (qe : Vec) : Nat → List Nat → List Int
  | 0, _ => []
  | k + 1, used =>
    match bestIdx vecs qe used with
    | some i => Int.ofNat i :: faissTopK vecs qe k (i :: used)
    | none => (-1) :: faissTopK vecs qe k used

/-- A search hit from the ephemeral store:
`{"text": chunk.text, "document_id": str(chunk.document_id)}`. -/
structure EphHit where
  text : List Char
  document_id : Nat
deriving DecidableEq

/-- `FAISSVectorStore.similarity_search` (lines 74–107): embed the query,
take the top-`top_k` FAISS ids, and for each id fetch the first `Chunk` row
with that `faiss_index_id`; ids with no matching row are silently skipped
(`if chunk:`). -/
def faissSimilaritySearch (embedQ : List Char → Vec) (s : EphState)
    (query : List Char) (topK : Nat) : List EphHit :=
  let qe := embedQ query
  (faissTopK s.vectors qe topK []).filterMap (fun idx =>
    (s.rows.find? (fun r => r.faiss_index_id = idx)).map (fun r =>
      { text := r.text, document_id := r.document_id }))

/-! ## Persistent store (`backend/vectorstore/postgres_store.py`)

`PostgresVectorStore.add_document_chunks` runs inside `try/except`: it
commits the `Document` row (line 30 — a first, separate transaction), then
adds one `Chunk` row per `(text, embedding)` pair and commits again
(line 43).  The pgvector column is `Vector(1024)`, so the second commit fails
with a dimension error whenever some pending embedding does not have length
1024; the `except` branch rolls the *pending chunk rows* back and re-raises —
the already-committed `Document` row is untouched. -/

/-- A persistent `chunks` row: `document_id`, `text`, `embedding`,
`metadata_json` (`postgres_store.py` lines 34–41). -/
structure PRow where
  document_id : Nat
  text : List Char
  embedding : Vec
  metadata_json : Dict
deriving DecidableEq

/-- State of the persistent store: the two relational tables. -/
structure PGState where
  docs : List DocRow
  chunks : List PRow
  nextDocId : Nat
deriving DecidableEq

def emptyPG : PGState := ⟨[], [], 0⟩

/-- `PostgresVectorStore.add_document_chunks` (lines 18–48).  When the
metadata carries no `filename`, the *first* `session.commit()` raises the
NOT NULL IntegrityError, the `except` branch rolls back, and the store is
left unchanged.  Otherwise the `Document` row is committed, and the second
commit (the chunk rows) fails exactly when some pending embedding violates
the `Vector(1024)` column dimension — rolling back only the pending chunk
rows. -/
def pgAddDocumentChunks (s : PGState) (chunkTexts : List (List Char))
    (embeddings : List Vec) (meta : Dict) : PGState × Option StoreErr :=
  if (dictGet meta "filename".data).isSome then
    let doc := mkDocRow meta s.nextDocId
    let s1 : PGState := { s with docs := s.docs ++ [doc], nextDocId := s.nextDocId + 1 }
    let pending := (chunkTexts.zip embeddings).map (fun p =>
      ({ document_id := doc.id, text := p.1, embedding := p.2,
         metadata_json := meta } : PRow))
    if pending.all (fun r => r.embedding.length = embDim) then
      ({ s1 with chunks := s1.chunks ++ pending }, none)
    else
      (s1, some StoreErr.dimensionMismatch)
  else
    (s, some StoreErr.notNullViolation)

/-- A search hit from the persistent store:
`{"text": r.text, "metadata": r.metadata_json or {}}`. -/
structure PgHit where
  text : List Char
  metadata : Dict
deriving DecidableEq

/-- Stable insertion sort by an integer key, ascending — the model of
`ORDER BY embedding <=> query` (ties keep table order). -/
def insortBy (key : α → Int) (a : α) : List α → List α
  | [] => [a]
  | b :: bs => if key b ≤ key a then b :: insortBy key a bs else a :: b :: bs

def sortByKey (key : α → Int) : List α → List α
  | [] => []
  | a :: as => insortBy key a (sortByKey key as)

/-- `PostgresVectorStore.similarity_search` (lines 50–64): order all chunk
rows by `cosine_distance(embedding, query_embedding)` ascending and return
the first `top_k`.  The distance is computed by pgvector over float vectors;
it enters the model as the explicit function `dist` (the merge claims hold
for *every* distance). -/
def pgSimilaritySearch (dist : Vec → Vec → Int) (s : PGState) (qe : Vec)
    (topK : Nat) : List PgHit :=
  ((sortByKey (fun r => dist r.embedding qe) s.chunks).take topK).map (fun r =>
    { text := r.text, metadata := r.metadata_json })

/-! ## Index manager (`backend/vectorstore/vector_manager.py`)

`VectorManager` owns the FAISS store, the Postgres store and the embedder.
Document metadata dicts live on the Python heap and are passed *by
reference*; the heap is modelled explicitly as a list of dicts indexed by a
`Nat` reference so that in-place mutation (`metadata["source"] = ...`) and its
visibility through aliases can be stated. -/

abbrev Heap := List Dict

/-- Read the dict a reference points to. -/
def heapGet (h : Heap) (ref : Nat) : Dict := (h.get? ref).getD []

/-- In-place update of one key of the dict a reference points to
(`metadata["source"] = ...`). -/
def heapSetKey (h : Heap) (ref : Nat) (k v : List Char) : Heap :=
  h.set ref (dictSet (heapGet h ref) k v)

/-- Combined state owned by one `VectorManager`. -/
structure MgrState where
  heap : Heap
  eph : EphState
  pg : PGState
deriving DecidableEq

/-- A hybrid search result: a user (ephemeral) hit or a general (persistent)
hit, provenance kept explicit. -/
abbrev MgrHit := EphHit ⊕ PgHit

/-- `VectorManager.search` (lines 39–51): embed the query once, query the
FAISS store and the Postgres store for `top_k` each, concatenate user results
first, truncate to `top_k`. -/
def managerSearch (dist : Vec → Vec → Int) (embedQ : List Char → Vec)
    (st : MgrState) (query : List Char) (topK : Nat) : List MgrHit :=
  let userResults := faissSimilaritySearch embedQ st.eph query topK
  let generalResults := pgSimilaritySearch dist st.pg (embedQ query) topK
  ((userResults.map Sum.inl) ++ (generalResults.map Sum.inr)).take topK

/-- `VectorManager.add_user_documents` (lines 33–37): set
`metadata["source"] = "user"` *in place on the caller's dict*, then delegate
to the FAISS store (which reads the document fields from that same dict). -/
def managerAddUserDocuments (embedD : List Char → Vec) (rowCommitOk : Bool)
    (st : MgrState) (chunks : List (ChunkD Nat)) (metaRef : Nat) :
    MgrState × Option StoreErr :=
  let heap' := heapSetKey st.heap metaRef "source".data "user".data
  let r := faissAddDocumentChunks embedD rowCommitOk st.eph chunks (heapGet heap' metaRef)
  ({ st with heap := heap', eph := r.1 }, r.2)

/-- `VectorManager.add_general_documents` (lines 26–31): set
`metadata["source"] = "general"` in place, extract the chunk texts, embed
them, delegate to the Postgres store. -/
def managerAddGeneralDocuments (embedD : List Char → Vec)
    (st : MgrState) (chunks : List (ChunkD Nat)) (metaRef : Nat) :
    MgrState × Option StoreErr :=
  let heap' := heapSetKey st.heap metaRef "source".data "general".data
  let texts := chunks.map ChunkD.text
  let embeddings := texts.map embedD
  let r := pgAddDocumentChunks st.pg texts embeddings (heapGet heap' metaRef)
  ({ st with heap := heap', pg := r.1 }, r.2)

/-! # Theorems -/

/-! ## Helper lemmas for the ephemeral add -/

theorem faissAdd_ok_state (embedD : List Char → Vec) (s : EphState)
    (chunks : List (ChunkD μ)) (meta : Dict)
    (hfn : (dictGet meta "filename".data).isSome = true) :
    faissAddDocumentChunks embedD true s chunks meta =
      ({ vectors := s.vectors ++ chunks.map (fun c => embedD c.text)
         docs := s.docs ++ [mkDocRow meta s.nextDocId]
         rows := s.rows ++ (List.range chunks.length).map (fun i =>
           ({ document_id := s.nextDocId
              faiss_index_id := Int.ofNat (s.vectors.length + i)
              text := ((chunks.get? i).map ChunkD.text).getD [] } : ERow))
         nextDocId := s.nextDocId + 1 }, none) := by
  simp [faissAddDocumentChunks, mkDocRow, hfn]

theorem faissAdd_fail_state (embedD : List Char → Vec) (s : EphState)
    (chunks : List (ChunkD μ)) (meta : Dict)
    (hfn : (dictGet meta "filename".data).isSome = true) :
    faissAddDocumentChunks embedD false s chunks meta =
      ({ vectors := s.vectors ++ chunks.map (fun c => embedD c.text)
         docs := s.docs ++ [mkDocRow meta s.nextDocId]
         rows := s.rows
         nextDocId := s.nextDocId + 1 }, some StoreErr.rowCommitFailed) := by
  simp [faissAddDocumentChunks, mkDocRow, hfn]

/-- Metadata without a `filename` violates the NOT NULL constraint at the
first commit: the persistent store is left unchanged (the `except` branch
rolls the transaction back and re-raises). -/
theorem pgAdd_missing_filename (s : PGState) (chunkTexts : List (List Char))
    (embeddings : List Vec) (meta : Dict)
    (hfn : (dictGet meta "filename".data).isSome = false) :
    pgAddDocumentChunks s chunkTexts embeddings meta
      = (s, some StoreErr.notNullViolation) := by
  simp [pgAddDocumentChunks, hfn]

/-- Metadata without a `filename` makes the ephemeral add raise at the first
`db.commit()`, before `index.add` is reached: no vector is appended and no
row or document persists. -/
theorem faissAdd_missing_filename (embedD : List Char → Vec) (rowCommitOk : Bool)
    (s : EphState) (chunks : List (ChunkD μ)) (meta : Dict)
    (hfn : (dictGet meta "filename".data).isSome = false) :
    faissAddDocumentChunks embedD rowCommitOk s chunks meta
      = (s, some StoreErr.notNullViolation) := by
  simp [faissAddDocumentChunks, hfn]

/-- C2.  Positional mapping invariant of the ephemeral index: `add` reads the
index's current total `N = self.index.ntotal` immediately before appending,
and the `i`-th chunk's row stores `faiss_index_id = N + i`.  In particular a
first `add` of `c1` on the empty index assigns positions `0..|c1|-1` and a
second `add` of `c2` assigns `|c1|..|c1|+|c2|-1`. -/
theorem faiss_positional_invariant (embedD : List Char → Vec) (s : EphState)
    (chunks : List (ChunkD μ)) (meta : Dict)
    (hfn : (dictGet meta "filename".data).isSome = true) :
    (((faissAddDocumentChunks embedD true s chunks meta).1.rows.drop s.rows.length).map
        ERow.faiss_index_id
      = (List.range chunks.length).map (fun i => Int.ofNat (s.vectors.length + i)))
    ∧ (∀ (c1 c2 : List (ChunkD μ)) (m1 m2 : Dict),
        (dictGet m1 "filename".data).isSome = true →
        (dictGet m2 "filename".data).isSome = true →
        ((faissAddDocumentChunks embedD true emptyEph c1 m1).1.rows.map ERow.faiss_index_id
          = (List.range c1.length).map Int.ofNat)
        ∧ (((faissAddDocumentChunks embedD true
              (faissAddDocumentChunks embedD true emptyEph c1 m1).1 c2 m2).1.rows.drop
                c1.length).map ERow.faiss_index_id
            = (List.range c2.length).map (fun i => Int.ofNat (c1.length + i)))) := by
  refine ⟨?_, fun c1 c2 m1 m2 hm1 hm2 => ⟨?_, ?_⟩⟩
  · rw [faissAdd_ok_state embedD s chunks meta hfn]
    simp [List.drop_left', List.map_map]
  · rw [faissAdd_ok_state embedD emptyEph c1 m1 hm1]
    simp [emptyEph, List.map_map]
  · rw [faissAdd_ok_state embedD emptyEph c1 m1 hm1,
      faissAdd_ok_state embedD _ c2 m2 hm2]
    simp [emptyEph, List.map_map]

/-- C2 witness: two single-chunk adds with filename-bearing metadata on the
empty index — the first chunk gets position 0, the second position 1. -/
theorem faiss_positional_invariant_witness :
    ((faissAddDocumentChunks (fun _ => [(0 : Int)]) true emptyEph
        [({ text := "a".data, metadata := () } : ChunkD Unit)]
        [("filename".data, "f".data)]).1.rows.map ERow.faiss_index_id
      = (List.range 1).map Int.ofNat)
    ∧ (((faissAddDocumentChunks (fun _ => [(0 : Int)]) true
          (faissAddDocumentChunks (fun _ => [(0 : Int)]) true emptyEph
            [({ text := "a".data, metadata := () } : ChunkD Unit)]
            [("filename".data, "f".data)]).1
          [({ text := "b".data, metadata := () } : ChunkD Unit)]
          [("filename".data, "f".data)]).1.rows.drop 1).map ERow.faiss_index_id
      = (List.range 1).map (fun i => Int.ofNat (1 + i))) :=
  (faiss_positional_invariant (fun _ => [(0 : Int)]) emptyEph
      ([] : List (ChunkD Unit)) [("filename".data, "f".data)] (by decide)).2
    [⟨"a".data, ()⟩] [⟨"b".data, ()⟩]
    [("filename".data, "f".data)] [("filename".data, "f".data)]
    (by decide) (by decide)

/-- C5 counterexample.  One chunk with filename-bearing metadata (so the
`Document` commit succeeds — `documents.filename` is NOT NULL) added to the
empty ephemeral index with the chunk-row commit failing: the vector is
appended to the FAISS index (count 1) but no `Chunk` row exists, the error
propagates, and the final state is neither "both took effect" nor "neither
took effect" — no compensating action restores consistency. -/
theorem faiss_add_not_atomic_counterexample :
    (faissAddDocumentChunks (fun _ => [(0 : Int)]) false emptyEph
        [({ text := "t".data, metadata := () } : ChunkD Unit)]
        [("filename".data, "f".data)]).1.vectors.length = 1
    ∧ (faissAddDocumentChunks (fun _ => [(0 : Int)]) false emptyEph
        [({ text := "t".data, metadata := () } : ChunkD Unit)]
        [("filename".data, "f".data)]).1.rows = []
    ∧ (faissAddDocumentChunks (fun _ => [(0 : Int)]) false emptyEph
        [({ text := "t".data, metadata := () } : ChunkD Unit)]
        [("filename".data, "f".data)]).2.isSome = true
    ∧ ¬ (((faissAddDocumentChunks (fun _ => [(0 : Int)]) false emptyEph
            [({ text := "t".data, metadata := () } : ChunkD Unit)]
        [("filename".data, "f".data)]).1.vectors.length = 1
          ∧ (faissAddDocumentChunks (fun _ => [(0 : Int)]) false emptyEph
            [({ text := "t".data, metadata := () } : ChunkD Unit)]
            [("filename".data, "f".data)]).1.rows.length = 1)
        ∨ ((faissAddDocumentChunks (fun _ => [(0 : Int)]) false emptyEph
            [({ text := "t".data, metadata := () } : ChunkD Unit)]
            [("filename".data, "f".data)]).1.vectors.length = 0
          ∧ (faissAddDocumentChunks (fun _ => [(0 : Int)]) false emptyEph
            [({ text := "t".data, metadata := () } : ChunkD Unit)]
            [("filename".data, "f".data)]).1.rows.length = 0)) := by
  decide

/-- C5 amended.  `FAISSVectorStore.add_document_chunks` is *not* a single
logical unit: when the chunk-row commit fails, the exception propagates with
no compensating action — the embedded vectors remain appended to the FAISS
index while the relational rows are unchanged, leaving vectors with no
matching rows. -/
theorem faiss_add_failure_leaves_inconsistency (embedD : List Char → Vec)
    (s : EphState) (chunks : List (ChunkD μ)) (meta : Dict)
    (hfn : (dictGet meta "filename".data).isSome = true) :
    ((faissAddDocumentChunks embedD false s chunks meta).1.vectors
        = s.vectors ++ chunks.map (fun c => embedD c.text))
    ∧ (faissAddDocumentChunks embedD false s chunks meta).1.rows = s.rows
    ∧ (faissAddDocumentChunks embedD false s chunks meta).2
        = some StoreErr.rowCommitFailed := by
  rw [faissAdd_fail_state embedD s chunks meta hfn]
  exact ⟨rfl, rfl, rfl⟩

/-- C5 witness: the amended theorem applied at one chunk with
filename-bearing metadata and a failing chunk-row commit. -/
theorem faiss_add_failure_leaves_inconsistency_witness :
    ((faissAddDocumentChunks (fun _ => [(0 : Int)]) false emptyEph
        [({ text := "t".data, metadata := () } : ChunkD Unit)]
        [("filename".data, "f".data)]).1.vectors = [[(0 : Int)]])
    ∧ ((faissAddDocumentChunks (fun _ => [(0 : Int)]) false emptyEph
        [({ text := "t".data, metadata := () } : ChunkD Unit)]
        [("filename".data, "f".data)]).1.rows = [])
    ∧ ((faissAddDocumentChunks (fun _ => [(0 : Int)]) false emptyEph
        [({ text := "t".data, metadata := () } : ChunkD Unit)]
        [("filename".data, "f".data)]).2 = some StoreErr.rowCommitFailed) :=
  ⟨(faiss_add_failure_leaves_inconsistency (fun _ => [(0 : Int)]) emptyEph
      [⟨"t".data, ()⟩] [("filename".data, "f".data)] (by decide)).1,
   (faiss_add_failure_leaves_inconsistency (fun _ => [(0 : Int)]) emptyEph
      [⟨"t".data, ()⟩] [("filename".data, "f".data)] (by decide)).2.1,
   (faiss_add_failure_leaves_inconsistency (fun _ => [(0 : Int)]) emptyEph
      [⟨"t".data, ()⟩] [("filename".data, "f".data)] (by decide)).2.2⟩

/-- C1 counterexample.  Adding one chunk with filename-bearing metadata (so
the `Document` commit succeeds — `documents.filename` is NOT NULL) whose
vector has dimension 2 ≠ 1024 to the empty persistent store: the chunk
transaction rolls back and the error propagates, but the `Document` row was
committed by the earlier separate `session.commit()` and persists — the store
is *not* left exactly as it was before the call. -/
theorem pg_add_not_atomic_counterexample :
    (pgAddDocumentChunks emptyPG ["t".data] [[0, 0]]
        [("filename".data, "f".data)]).2 = some StoreErr.dimensionMismatch
    ∧ (pgAddDocumentChunks emptyPG ["t".data] [[0, 0]]
        [("filename".data, "f".data)]).1.docs.length = 1
    ∧ (pgAddDocumentChunks emptyPG ["t".data] [[0, 0]]
        [("filename".data, "f".data)]).1.chunks = []
    ∧ (pgAddDocumentChunks emptyPG ["t".data] [[0, 0]]
        [("filename".data, "f".data)]).1 ≠ emptyPG := by
  decide

/-- C1 amended.  In `PostgresVectorStore.add_document_chunks` the `Document`
row is committed in its own earlier transaction; the chunk inserts form a
second transaction.  For metadata carrying a filename (so the first commit
passes the NOT NULL constraint), when any chunk insert fails (a vector of
dimension ≠ 1024), all chunk inserts roll back and the dimension error
propagates, but the already-committed `Document` row persists: the store is
left with a partial document (a `Document` row with no `Chunk` rows) rather
than exactly its prior state. -/
theorem pg_add_partial_document (s : PGState) (chunkTexts : List (List Char))
    (embeddings : List Vec) (meta : Dict)
    (hfn : (dictGet meta "filename".data).isSome = true)
    (hbad : (chunkTexts.zip embeddings).any (fun p => p.2.length ≠ embDim) = true) :
    pgAddDocumentChunks s chunkTexts embeddings meta
      = ({ docs := s.docs ++ [mkDocRow meta s.nextDocId], chunks := s.chunks,
           nextDocId := s.nextDocId + 1 }, some StoreErr.dimensionMismatch) := by
  obtain ⟨p, hp, hne⟩ := List.any_eq_true.mp hbad
  have hne' : p.2.length ≠ embDim := by simpa using hne
  simp only [pgAddDocumentChunks]
  rw [if_pos hfn, if_neg]
  intro hall
  rw [List.all_eq_true] at hall
  have hmem : ({ document_id := (mkDocRow meta s.nextDocId).id, text := p.1,
                 embedding := p.2, metadata_json := meta } : PRow) ∈
      (chunkTexts.zip embeddings).map (fun p =>
        ({ document_id := (mkDocRow meta s.nextDocId).id, text := p.1,
           embedding := p.2, metadata_json := meta } : PRow)) :=
    List.mem_map_of_mem _ hp
  have hlen := hall _ hmem
  simp only [decide_eq_true_eq] at hlen
  exact hne' hlen

/-- C1 witness: the amended theorem applied at a concrete input (one chunk,
filename-bearing metadata, vector dimension 2). -/
theorem pg_add_partial_document_witness :
    ((["t".data].zip [[(0 : Int), 0]]).any (fun p => p.2.length ≠ embDim) = true)
    ∧ pgAddDocumentChunks emptyPG ["t".data] [[(0 : Int), 0]]
        [("filename".data, "f".data)]
        = ({ docs := emptyPG.docs
               ++ [mkDocRow [("filename".data, "f".data)] emptyPG.nextDocId],
             chunks := emptyPG.chunks, nextDocId := emptyPG.nextDocId + 1 },
           some StoreErr.dimensionMismatch) :=
  ⟨by decide,
    pg_add_partial_document emptyPG ["t".data] [[(0 : Int), 0]]
      [("filename".data, "f".data)] (by decide) (by decide)⟩

/-- C3.  `VectorManager.search` is a fixed-priority merge: the result is the
ephemeral top-`k` list followed by the persistent top-`k` list, truncated to
`k` — equivalently, all ephemeral hits (up to `k`) and then persistent hits
filling the remainder — and whenever the ephemeral store returns anything and
`k > 0`, the first result is that ephemeral hit, for *every* distance
function, i.e. regardless of the stores' similarity scores. -/
theorem manager_search_fixed_priority (dist : Vec → Vec → Int)
    (embedQ : List Char → Vec) (st : MgrState) (query : List Char) (k : Nat) :
    (managerSearch dist embedQ st query k
      = ((faissSimilaritySearch embedQ st.eph query k).map Sum.inl
          ++ (pgSimilaritySearch dist st.pg (embedQ query) k).map Sum.inr).take k)
    ∧ (managerSearch dist embedQ st query k
      = ((faissSimilaritySearch embedQ st.eph query k).take k).map Sum.inl
          ++ ((pgSimilaritySearch dist st.pg (embedQ query) k).take
              (k - (faissSimilaritySearch embedQ st.eph query k).length)).map Sum.inr)
    ∧ (∀ u us, faissSimilaritySearch embedQ st.eph query k = u :: us → 0 < k →
        (managerSearch dist embedQ st query k).head? = some (Sum.inl u)) := by
  have h2 : managerSearch dist embedQ st query k
      = ((faissSimilaritySearch embedQ st.eph query k).take k).map Sum.inl
          ++ ((pgSimilaritySearch dist st.pg (embedQ query) k).take
              (k - (faissSimilaritySearch embedQ st.eph query k).length)).map Sum.inr := by
    show (((faissSimilaritySearch embedQ st.eph query k).map Sum.inl
        ++ (pgSimilaritySearch dist st.pg (embedQ query) k).map Sum.inr).take k) = _
    rw [List.take_append_eq_append_take, List.map_take, List.map_take, List.length_map]
  refine ⟨rfl, h2, fun u us hu hk => ?_⟩
  rw [h2, hu]
  cases k with
  | zero => omega
  | succ n => simp

/-- C3 witness: a concrete state with one ephemeral chunk of inner-product
similarity 0 and one persistent chunk at distance 0 (i.e. maximally similar);
`search` with `k = 2` still returns the ephemeral chunk first. -/
theorem manager_search_fixed_priority_witness :
    (managerSearch (fun _ _ => 0) (fun _ => [1])
        ⟨[], ⟨[[0]], [], [⟨0, 0, "u".data⟩], 1⟩, ⟨[], [⟨0, "g".data, [5], []⟩], 0⟩⟩
        "q".data 2).head? = some (Sum.inl ⟨"u".data, 0⟩) :=
  (manager_search_fixed_priority (fun _ _ => 0) (fun _ => [1])
      ⟨[], ⟨[[0]], [], [⟨0, 0, "u".data⟩], 1⟩, ⟨[], [⟨0, "g".data, [5], []⟩], 0⟩⟩
      "q".data 2).2.2 ⟨"u".data, 0⟩ [] (by decide) (by decide)

theorem faissTopK_length (vecs : List Vec) (qe : Vec) :
    ∀ (k : Nat) (used : List Nat), (faissTopK vecs qe k used).length = k := by
  intro k
  induction k with
  | zero => intro used; rfl
  | succ n ih =>
    intro used
    cases h : bestIdx vecs qe used <;> simp [faissTopK, h, ih]

/-- C8.  `FAISSVectorStore.similarity_search` looks up a relational row for
each position id returned by FAISS: every result comes from a matching row;
a returned id whose row exists contributes its text and document id; if no
returned id has a matching row the result is `[]` (ids with no row are
silently excluded rather than raising); and the result holds at most `top_k`
entries — possibly fewer, possibly none. -/
theorem faiss_search_drops_unmatched (embedQ : List Char → Vec) (s : EphState)
    (query : List Char) (k : Nat) :
    (faissSimilaritySearch embedQ s query k).length ≤ k
    ∧ (∀ h' ∈ faissSimilaritySearch embedQ s query k, ∃ r ∈ s.rows,
        h'.text = r.text ∧ h'.document_id = r.document_id)
    ∧ (∀ idx ∈ faissTopK s.vectors (embedQ query) k [], ∀ r : ERow,
        s.rows.find? (fun r2 => r2.faiss_index_id = idx) = some r →
        ({ text := r.text, document_id := r.document_id } : EphHit)
          ∈ faissSimilaritySearch embedQ s query k)
    ∧ ((∀ idx ∈ faissTopK s.vectors (embedQ query) k [],
          s.rows.find? (fun r2 => r2.faiss_index_id = idx) = none) →
        faissSimilaritySearch embedQ s query k = []) := by
  refine ⟨?_, ?_, ?_, ?_⟩
  · calc (faissSimilaritySearch embedQ s query k).length
        ≤ (faissTopK s.vectors (embedQ query) k []).length :=
          List.length_filterMap_le _ _
      _ = k := faissTopK_length _ _ _ _
  · intro h' hmem
    obtain ⟨idx, hidx, heq⟩ := List.mem_filterMap.mp hmem
    obtain ⟨r, hfind, hr⟩ := Option.map_eq_some'.mp heq
    exact ⟨r, List.mem_of_find?_eq_some hfind, by rw [← hr], by rw [← hr]⟩
  · intro idx hidx r hfind
    exact List.mem_filterMap.mpr ⟨idx, hidx, by rw [hfind]; rfl⟩
  · intro hnone
    exact List.filterMap_eq_nil_iff.mpr (fun idx hidx => by rw [hnone idx hidx]; rfl)

/-- C8 witness: one stored vector and no relational rows; `top_k = 1` search
returns the empty list — a valid, non-error outcome with fewer than `k`
results. -/
theorem faiss_search_drops_unmatched_witness :
    faissSimilaritySearch (fun _ => [1]) ⟨[[1]], [], [], 0⟩ "q".data 1 = [] :=
  (faiss_search_drops_unmatched (fun _ => [1]) ⟨[[1]], [], [], 0⟩ "q".data 1).2.2.2
    (by decide)

/-- C4 counterexample.  `chunk_size = 1`, `chunk_overlap = 20`, character
tokenizer: the input packs into three pre-overlap chunks
`["abcdefghijklmnopqrstuvwxyz", "Clause 1", "Clause 2"]`.  The claim requires
the third emitted chunk to begin with the trailing 20 characters of the
*second chunk's pre-overlap text* `"Clause 1"` (all of it, being shorter than
20) followed by a blank line — i.e. with `"Clause 1\n\n"`.  The code instead
takes the tail of the second *emitted* chunk (overlap already attached), so
the third chunk begins with `"qrstuvwxyz\n\nClause 1"`. -/
theorem chunker_overlap_counterexample :
    ((chunkText lenTok 1 20 "abcdefghijklmnopqrstuvwxyzClause 1Clause 2".data ()).map
        ChunkD.text
      = ["abcdefghijklmnopqrstuvwxyz".data,
         "ghijklmnopqrstuvwxyz\n\nClause 1".data,
         "qrstuvwxyz\n\nClause 1\n\nClause 2".data])
    ∧ (packSections lenTok 1
        (splitBySections "abcdefghijklmnopqrstuvwxyzClause 1Clause 2".data)
      = ["abcdefghijklmnopqrstuvwxyz".data, "Clause 1".data, "Clause 2".data])
    ∧ ((pySliceLast 20 "Clause 1".data ++ nl2).isPrefixOf
        "qrstuvwxyz\n\nClause 1\n\nClause 2".data = false) := by
  decide

theorem addOvGo_chain (ov : Nat) (l : List (List Char)) :
    ∀ prev : List Char,
      List.Chain' (fun a b => (pySliceLast ov a ++ nl2) <+: b) (prev :: addOvGo ov prev l) := by
  induction l with
  | nil => intro prev; simp [addOvGo]
  | cons c cs ih =>
    intro prev
    rw [addOvGo, List.chain'_cons]
    exact ⟨List.prefix_append _ _, ih _⟩

/-- C4 amended.  Every chunk after the first begins with the trailing
`chunk_overlap` characters of the immediately preceding *emitted* chunk's
final text — the text with its own overlap prefix already attached, not the
pre-overlap packed text — clamped to the whole text when it is shorter,
followed by a blank line.  (The first chunk carries no overlap prefix.) -/
theorem chunker_overlap_law (tok : List Char → Nat) (chunkSize chunkOverlap : Nat)
    (text : List Char) (meta : μ) :
    List.Chain' (fun a b => (pySliceLast chunkOverlap a ++ nl2) <+: b)
      ((chunkText tok chunkSize chunkOverlap text meta).map ChunkD.text) := by
  have hmap : (chunkText tok chunkSize chunkOverlap text meta).map ChunkD.text
      = addOverlap chunkOverlap (packSections tok chunkSize (splitBySections text)) := by
    simp [chunkText, List.map_map, Function.comp_def]
  rw [hmap]
  cases packSections tok chunkSize (splitBySections text) with
  | nil => simp [addOverlap]
  | cons c cs => exact addOvGo_chain chunkOverlap cs c

/-! ## Strip lemmas -/

theorem dropWhile_head_false (p : Char → Bool) :
    ∀ (l : List Char) (a : Char) (as : List Char),
      l.dropWhile p = a :: as → p a = false := by
  intro l
  induction l with
  | nil => intro a as h; simp at h
  | cons c cs ih =>
    intro a as h
    rw [List.dropWhile_cons] at h
    by_cases hc : p c = true
    · rw [if_pos hc] at h; exact ih a as h
    · rw [if_neg hc] at h
      cases h
      exact Bool.eq_false_iff.mpr hc

theorem dropTrail_prefix (p : Char → Bool) : ∀ l : List Char, dropTrail p l <+: l := by
  intro l
  induction l with
  | nil => exact List.nil_prefix
  | cons c cs ih =>
    rw [dropTrail]
    cases h : dropTrail p cs with
    | nil =>
      by_cases hc : p c = true
      · simp [hc]
      · simp only [hc]
        simp
    | cons r rs =>
      rw [h] at ih
      exact (List.prefix_cons_inj c).mpr ih

theorem dropTrail_getLast? (p : Char → Bool) :
    ∀ (l : List Char) (x : Char), (dropTrail p l).getLast? = some x → p x = false := by
  intro l
  induction l with
  | nil => intro x h; simp [dropTrail] at h
  | cons c cs ih =>
    intro x h
    rw [dropTrail] at h
    cases hr : dropTrail p cs with
    | nil =>
      rw [hr] at h
      by_cases hc : p c = true
      · rw [if_pos hc] at h; simp at h
      · rw [if_neg hc] at h
        simp at h
        rw [← h]
        exact Bool.eq_false_iff.mpr hc
    | cons r rs =>
      rw [hr] at h
      rw [List.getLast?_cons_cons] at h
      exact ih x (by rw [hr]; exact h)

theorem dropTrail_eq_self (p : Char → Bool) :
    ∀ l : List Char, (∀ x, l.getLast? = some x → p x = false) → dropTrail p l = l := by
  intro l
  induction l with
  | nil => intro _; rfl
  | cons c cs ih =>
    intro hlast
    rw [dropTrail]
    cases hcs : cs with
    | nil =>
      subst hcs
      have hc : p c = false := hlast c (by simp)
      simp [hc, dropTrail]
    | cons d ds =>
      subst hcs
      have hcs' : dropTrail p (d :: ds) = d :: ds := by
        apply ih
        intro x hx
        apply hlast
        rw [List.getLast?_cons_cons]
        exact hx
      rw [hcs']

theorem pyStrip_idem (l : List Char) : pyStrip (pyStrip l) = pyStrip l := by
  unfold pyStrip
  have h1 : (dropTrail wsChar (l.dropWhile wsChar)).dropWhile wsChar
      = dropTrail wsChar (l.dropWhile wsChar) := by
    cases ht : dropTrail wsChar (l.dropWhile wsChar) with
    | nil => rfl
    | cons a as =>
      have hpre := dropTrail_prefix wsChar (l.dropWhile wsChar)
      rw [ht] at hpre
      obtain ⟨tail, htail⟩ := hpre
      have hhead : wsChar a = false := by
        apply dropWhile_head_false wsChar l a (as ++ tail)
        rw [← htail]
        simp
      rw [List.dropWhile_cons, hhead]
      simp
  rw [h1]
  apply dropTrail_eq_self
  intro x hx
  exact dropTrail_getLast? wsChar _ x hx

/-! ## Section-splitting output lemmas -/

/-- Every section emitted by the `_split_by_sections` buffer loop is a
stripped, non-empty string (it is `buffer.strip()` guarded by truthiness). -/
theorem assembleGo_stripped :
    ∀ (ps : List (List Char)) (buf s : List Char),
      s ∈ assembleGo ps buf → pyStrip s = s ∧ s ≠ [] := by
  intro ps
  induction ps with
  | nil =>
    intro buf s hs
    rw [assembleGo] at hs
    by_cases hb : pyStrip buf ≠ []
    · rw [if_pos hb] at hs
      have he := List.mem_singleton.mp hs
      subst he
      exact ⟨pyStrip_idem buf, hb⟩
    · rw [if_neg hb] at hs
      simp at hs
  | cons p ps ih =>
    intro buf s hs
    rw [assembleGo] at hs
    by_cases hm : (matchPatternAt p).isSome
    · rw [if_pos hm] at hs
      rcases List.mem_append.mp hs with h | h
      · by_cases hb : pyStrip buf ≠ []
        · rw [if_pos hb] at h
          have he := List.mem_singleton.mp h
          subst he
          exact ⟨pyStrip_idem buf, hb⟩
        · rw [if_neg hb] at h
          simp at h
      · exact ih p s h
    · rw [if_neg hm] at hs
      exact ih _ s hs

theorem splitBySections_stripped (text : List Char) (s : List Char)
    (hs : s ∈ splitBySections text) : pyStrip s = s ∧ s ≠ [] :=
  assembleGo_stripped (reSplit text) [] s hs

/-! ## Packing lemmas -/

/-- Entries already in the accumulator survive to the output of the packing
loop. -/
theorem packGo_acc_sub (tok : List Char → Nat) (chunkSize : Nat) :
    ∀ (ss : List (List Char)) (st : PackSt) (x : List Char × List (List Char)),
      x ∈ st.acc → x ∈ packGo tok chunkSize ss st := by
  intro ss
  induction ss with
  | nil =>
    intro st x hx
    rw [packGo]
    by_cases hb : pyStrip st.cur ≠ []
    · rw [if_pos hb]; exact List.mem_append_left _ hx
    · rw [if_neg hb]; exact hx
  | cons s ss ih =>
    intro st x hx
    rw [packGo]
    by_cases hle : st.curTok + tok s ≤ chunkSize
    · rw [if_pos hle]
      by_cases hc : st.cur ≠ []
      · rw [if_pos hc]; exact ih _ x hx
      · rw [if_neg hc]; exact ih _ x hx
    · rw [if_neg hle]
      apply ih
      by_cases hb : pyStrip st.cur ≠ []
      · simp only [if_pos hb]
        exact List.mem_append_left _ hx
      · simp only [if_neg hb]
        exact hx

/-- A buffer whose token count already exceeds the budget is flushed as its
own chunk (or vanishes when it strips to the empty string). -/
theorem packGo_flush_big (tok : List Char → Nat) (chunkSize : Nat) :
    ∀ (ss : List (List Char)) (st : PackSt), chunkSize < st.curTok →
      pyStrip st.cur = [] ∨ (pyStrip st.cur, st.curSecs) ∈ packGo tok chunkSize ss st := by
  intro ss
  induction ss with
  | nil =>
    intro st hbig
    by_cases hb : pyStrip st.cur ≠ []
    · right
      rw [packGo, if_pos hb]
      exact List.mem_append_right _ (by simp)
    · left
      simpa using hb
  | cons s ss ih =>
    intro st hbig
    by_cases hb : pyStrip st.cur ≠ []
    · right
      rw [packGo]
      have hle : ¬ st.curTok + tok s ≤ chunkSize := by omega
      rw [if_neg hle]
      apply packGo_acc_sub
      simp only [if_pos hb]
      exact List.mem_append_right _ (by simp)
    · left
      simpa using hb

/-- An oversized section (token count exceeding the budget) is emitted by the
packing loop as its own chunk, stripped. -/
theorem packGo_oversized_mem (tok : List Char → Nat) (chunkSize : Nat) :
    ∀ (ss : List (List Char)) (st : PackSt) (s : List Char),
      s ∈ ss → chunkSize < tok s →
      pyStrip s = [] ∨ (pyStrip s, [s]) ∈ packGo tok chunkSize ss st := by
  intro ss
  induction ss with
  | nil => intro st s hs; simp at hs
  | cons a rest ih =>
    intro st s hs hbig
    rcases List.mem_cons.mp hs with h | h
    · subst h
      rw [packGo]
      have hle : ¬ st.curTok + tok s ≤ chunkSize := by omega
      rw [if_neg hle]
      exact packGo_flush_big tok chunkSize rest
        ⟨s, [s], tok s,
          if pyStrip st.cur ≠ [] then st.acc ++ [(pyStrip st.cur, st.curSecs)] else st.acc⟩
        hbig
    · rw [packGo]
      by_cases hle : st.curTok + tok a ≤ chunkSize
      · rw [if_pos hle]
        by_cases hc : st.cur ≠ []
        · rw [if_pos hc]; exact ih _ s h hbig
        · rw [if_neg hc]; exact ih _ s h hbig
      · rw [if_neg hle]
        exact ih _ s h hbig

theorem addOvGo_suffix (ov : Nat) :
    ∀ (cs : List (List Char)) (prev s : List Char), s ∈ cs →
      ∃ t ∈ addOvGo ov prev cs, s <:+ t := by
  intro cs
  induction cs with
  | nil => intro prev s hs; simp at hs
  | cons c cs ih =>
    intro prev s hs
    rcases List.mem_cons.mp hs with h | h
    · subst h
      exact ⟨pySliceLast ov prev ++ nl2 ++ s,
        by rw [addOvGo]; exact List.mem_cons_self _ _, List.suffix_append _ _⟩
    · obtain ⟨t, ht, hsuf⟩ := ih (pySliceLast ov prev ++ nl2 ++ c) s h
      exact ⟨t, by rw [addOvGo]; exact List.mem_cons_of_mem _ ht, hsuf⟩

theorem addOverlap_suffix (ov : Nat) (l : List (List Char)) (s : List Char)
    (hs : s ∈ l) : ∃ t ∈ addOverlap ov l, s <:+ t := by
  cases l with
  | nil => simp at hs
  | cons c cs =>
    rcases List.mem_cons.mp hs with h | h
    · subst h
      exact ⟨s, by rw [addOverlap]; exact List.mem_cons_self _ _, List.suffix_refl s⟩
    · obtain ⟨t, ht, hsuf⟩ := addOvGo_suffix ov cs c s h
      exact ⟨t, by rw [addOverlap]; exact List.mem_cons_of_mem _ ht, hsuf⟩

/-- C7.  Oversized-section law: a section whose token count exceeds
`chunk_size` is emitted by the packing loop as its own chunk — the emitted
chunk is exactly the whole section text, never truncated, split, or packed
with a preceding section — and the full section text survives as a suffix of
the corresponding final chunk produced by `chunk_text` (the overlap stage
only prepends a prefix). -/
theorem chunker_oversized_section (tok : List Char → Nat)
    (chunkSize chunkOverlap : Nat) (meta : μ) (text s : List Char)
    (hs : s ∈ splitBySections text) (hbig : chunkSize < tok s) :
    s ∈ packSections tok chunkSize (splitBySections text)
    ∧ ∃ c ∈ chunkText tok chunkSize chunkOverlap text meta, s <:+ c.text := by
  obtain ⟨hstrip, hne⟩ := splitBySections_stripped text s hs
  have hmem : s ∈ packSections tok chunkSize (splitBySections text) := by
    rcases packGo_oversized_mem tok chunkSize (splitBySections text) ⟨[], [], 0, []⟩
        s hs hbig with h | h
    · rw [hstrip] at h; exact absurd h hne
    · rw [hstrip] at h
      exact List.mem_map.mpr ⟨(s, [s]), h, rfl⟩
  refine ⟨hmem, ?_⟩
  obtain ⟨t, ht, hsuf⟩ := addOverlap_suffix chunkOverlap _ s hmem
  exact ⟨⟨t, meta⟩, List.mem_map.mpr ⟨t, ht, rfl⟩, hsuf⟩

/-- C7 witness: `"Clause 1"` is a single section of 8 characters; with the
character tokenizer and `chunk_size = 1` it is oversized and emitted whole as
its own chunk. -/
theorem chunker_oversized_section_witness :
    ("Clause 1".data ∈ splitBySections "Clause 1".data)
    ∧ (1 < lenTok "Clause 1".data)
    ∧ "Clause 1".data ∈ packSections lenTok 1 (splitBySections "Clause 1".data)
    ∧ ∃ c ∈ chunkText lenTok 1 5 "Clause 1".data (), "Clause 1".data <:+ c.text :=
  ⟨by decide, by decide,
    (chunker_oversized_section lenTok 1 5 () "Clause 1".data "Clause 1".data
      (by decide) (by decide)).1,
    (chunker_oversized_section lenTok 1 5 () "Clause 1".data "Clause 1".data
      (by decide) (by decide)).2⟩

/-- The packing loop counts only section token counts: `current_tokens` is
always the sum of the token counts of the buffered sections, the `"\n\n"`
separators are never counted, and every emitted multi-section chunk passed
the `current_tokens + section_tokens <= chunk_size` test at its last append. -/
theorem packGo_budget (tok : List Char → Nat) (chunkSize : Nat) :
    ∀ (ss : List (List Char)) (st : PackSt),
      (∀ s ∈ ss, s ≠ []) →
      st.curTok = (st.curSecs.map tok).sum →
      (2 ≤ st.curSecs.length → st.curTok ≤ chunkSize) →
      (st.cur = [] → st.curSecs = [] ∧ st.curTok = 0) →
      (∀ pr ∈ st.acc, 2 ≤ pr.2.length → (pr.2.map tok).sum ≤ chunkSize) →
      ∀ pr ∈ packGo tok chunkSize ss st,
        2 ≤ pr.2.length → (pr.2.map tok).sum ≤ chunkSize := by
  intro ss
  induction ss with
  | nil =>
    intro st hne hsum hbud hemp hacc pr hpr
    rw [packGo] at hpr
    by_cases hb : pyStrip st.cur ≠ []
    · rw [if_pos hb] at hpr
      rcases List.mem_append.mp hpr with h | h
      · exact hacc pr h
      · have he := List.mem_singleton.mp h
        subst he
        intro h2
        rw [← hsum]
        exact hbud h2
    · rw [if_neg hb] at hpr
      exact hacc pr hpr
  | cons s ss ih =>
    intro st hne hsum hbud hemp hacc pr hpr
    have hs0 : s ≠ [] := hne s (List.mem_cons_self _ _)
    have hne' : ∀ x ∈ ss, x ≠ [] := fun x hx => hne x (List.mem_cons_of_mem _ hx)
    rw [packGo] at hpr
    by_cases hle : st.curTok + tok s ≤ chunkSize
    · rw [if_pos hle] at hpr
      by_cases hc : st.cur ≠ []
      · rw [if_pos hc] at hpr
        refine ih ⟨st.cur ++ nl2 ++ s, st.curSecs ++ [s], st.curTok + tok s, st.acc⟩
          hne' ?_ ?_ ?_ hacc pr hpr
        · simp [hsum]
        · intro _; exact hle
        · intro habs
          exfalso
          have h1 := congrArg List.length habs
          simp [nl2] at h1
      · rw [if_neg hc] at hpr
        have hcur : st.cur = [] := by simpa using hc
        obtain ⟨hsecs0, htok0⟩ := hemp hcur
        refine ih ⟨s, [s], st.curTok + tok s, st.acc⟩ hne' ?_ ?_ ?_ hacc pr hpr
        · simp [htok0]
        · intro h2; simp at h2
        · intro habs; exact absurd habs hs0
    · rw [if_neg hle] at hpr
      refine ih ⟨s, [s], tok s,
          if pyStrip st.cur ≠ [] then st.acc ++ [(pyStrip st.cur, st.curSecs)]
          else st.acc⟩ hne' ?_ ?_ ?_ ?_ pr hpr
      · simp
      · intro h2; simp at h2
      · intro habs; exact absurd habs hs0
      · intro x hx
        by_cases hb : pyStrip st.cur ≠ []
        · simp only [if_pos hb] at hx
          rcases List.mem_append.mp hx with h | h
          · exact hacc x h
          · have he := List.mem_singleton.mp h
            subst he
            intro h2
            rw [← hsum]
            exact hbud h2
        · simp only [if_neg hb] at hx
          exact hacc x hx

/-- C9.  Implicit budget invariant of `chunk_text`: every chunk packed from
two or more sections has section token counts summing to at most
`chunk_size`; yet the `"\n\n"` separators are not counted, so the full text
of such a chunk can exceed `chunk_size` — witnessed by the character
tokenizer with budget 16 packing two 8-token sections into an 18-token
chunk. -/
theorem chunker_budget_invariant (tok : List Char → Nat) (chunkSize : Nat)
    (text : List Char) :
    (∀ pr ∈ packPairs tok chunkSize (splitBySections text),
        2 ≤ pr.2.length → (pr.2.map tok).sum ≤ chunkSize)
    ∧ (packPairs lenTok 16 (splitBySections "Clause 1Clause 2".data)
        = [("Clause 1\n\nClause 2".data, ["Clause 1".data, "Clause 2".data])])
    ∧ 16 < lenTok "Clause 1\n\nClause 2".data := by
  refine ⟨?_, by decide, by decide⟩
  intro pr hpr
  refine packGo_budget tok chunkSize (splitBySections text) ⟨[], [], 0, []⟩
    (fun s hs => (splitBySections_stripped text s hs).2) rfl ?_ (fun _ => ⟨rfl, rfl⟩)
    (fun x hx => by simp at hx) pr hpr
  intro h2; simp at h2

/-- C9 witness: the budget invariant evaluated on the two-section pack of
`"Clause 1Clause 2"`. -/
theorem chunker_budget_invariant_witness :
    (("Clause 1\n\nClause 2".data, ["Clause 1".data, "Clause 2".data])
        ∈ packPairs lenTok 16 (splitBySections "Clause 1Clause 2".data))
    ∧ ((([( "Clause 1".data : List Char), "Clause 2".data].map lenTok).sum ≤ 16)) :=
  ⟨by decide,
    (chunker_budget_invariant lenTok 16 "Clause 1Clause 2".data).1
      ("Clause 1\n\nClause 2".data, ["Clause 1".data, "Clause 2".data])
      (by decide) (by decide)⟩

/-! ## Regex-match lemmas for the section-marker pattern -/

theorem digit_not_ws (c : Char) (h : isDigitC c = true) : wsChar c = false := by
  by_contra hw
  have hw' : wsChar c = true := by
    cases hcc : wsChar c
    · exact absurd hcc hw
    · rfl
  simp only [wsChar] at hw'
  rcases Bool.or_eq_true_iff.mp hw' with h6 | h6
  · rcases Bool.or_eq_true_iff.mp h6 with h5 | h5
    · rcases Bool.or_eq_true_iff.mp h5 with h4 | h4
      · rcases Bool.or_eq_true_iff.mp h4 with h3 | h3
        · rcases Bool.or_eq_true_iff.mp h3 with h2 | h2
          · have : c = ' ' := by simpa using h2
            subst this; simp [isDigitC] at h
          · have : c = '\t' := by simpa using h2
            subst this; simp [isDigitC] at h
        · have : c = '\n' := by simpa using h3
          subst this; simp [isDigitC] at h
      · have : c = '\r' := by simpa using h4
        subst this; simp [isDigitC] at h
    · have : c = '\x0b' := by simpa using h5
      subst this; simp [isDigitC] at h
  · have : c = '\x0c' := by simpa using h6
    subst this; simp [isDigitC] at h

theorem takeWhile_run (p : Char → Bool) :
    ∀ (w r : List Char), (∀ c ∈ w, p c = true) →
      (∀ a as, r = a :: as → p a = false) →
      (w ++ r).takeWhile p = w ∧ (w ++ r).dropWhile p = r := by
  intro w
  induction w with
  | nil =>
    intro r _ hr
    cases hcr : r with
    | nil => subst hcr; exact ⟨rfl, rfl⟩
    | cons a as =>
      have ha := hr a as hcr
      subst hcr
      exact ⟨by simp [List.takeWhile_cons, ha], by simp [List.dropWhile_cons, ha]⟩
  | cons c w ih =>
    intro r hw hr
    have hc := hw c (List.mem_cons_self _ _)
    obtain ⟨h1, h2⟩ := ih r (fun x hx => hw x (List.mem_cons_of_mem _ hx)) hr
    constructor
    · rw [List.cons_append, List.takeWhile_cons, hc]
      simp [h1]
    · rw [List.cons_append, List.dropWhile_cons, hc]
      simpa using h2

theorem stripPrefixStr_some :
    ∀ (kw l rest : List Char), stripPrefixStr kw l = some rest → l = kw ++ rest := by
  intro kw
  induction kw with
  | nil => intro l rest h; rw [stripPrefixStr] at h; cases h; rfl
  | cons k ks ih =>
    intro l rest h
    cases l with
    | nil => rw [stripPrefixStr] at h; cases h
    | cons c cs =>
      rw [stripPrefixStr] at h
      by_cases hk : k = c
      · rw [if_pos hk] at h
        subst hk
        rw [List.cons_append]
        exact congrArg (k :: ·) (ih cs rest h)
      · rw [if_neg hk] at h; cases h

theorem stripPrefixStr_append :
    ∀ (kw rest : List Char), stripPrefixStr kw (kw ++ rest) = some rest := by
  intro kw
  induction kw with
  | nil => intro rest; rfl
  | cons k ks ih => intro rest; simp [stripPrefixStr, ih]

theorem takeRun1_some (p : Char → Bool) (l t rest : List Char)
    (h : takeRun1 p l = some (t, rest)) :
    t = l.takeWhile p ∧ rest = l.dropWhile p ∧ t ≠ [] := by
  rw [takeRun1] at h
  cases ht : l.takeWhile p with
  | nil => rw [ht] at h; cases h
  | cons a as =>
    rw [ht] at h
    cases h
    exact ⟨rfl, rfl, by simp⟩

theorem matchKwNum_some_decomp (kw l m r : List Char)
    (h : matchKwNum kw l = some (m, r)) :
    ∃ w d, m = kw ++ w ++ d ∧ l = kw ++ (w ++ (d ++ r)) ∧ w ≠ [] ∧ d ≠ []
      ∧ (∀ c ∈ w, wsChar c = true) ∧ (∀ c ∈ d, isDigitC c = true)
      ∧ (∀ a as, r = a :: as → isDigitC a = false) := by
  rw [matchKwNum] at h
  split at h
  next h1 => cases h
  next r1 h1 =>
    split at h
    next h2 => cases h
    next w r2 h2 =>
      split at h
      next h3 => cases h
      next d r3 h3 =>
        simp only [Option.some.injEq, Prod.mk.injEq] at h
        obtain ⟨hm, hr3⟩ := h
        subst hm
        subst hr3
        obtain ⟨hw1, hw2, hw3⟩ := takeRun1_some wsChar r1 w r2 h2
        obtain ⟨hd1, hd2, hd3⟩ := takeRun1_some isDigitC r2 d r3 h3
        refine ⟨w, d, rfl, ?_, hw3, hd3, ?_, ?_, ?_⟩
        · rw [stripPrefixStr_some kw l r1 h1]
          congr 1
          have hr1 : r1 = w ++ r2 := by
            rw [hw1, hw2]; exact (List.takeWhile_append_dropWhile wsChar r1).symm
          rw [hr1]
          congr 1
          rw [hd1, hd2]; exact (List.takeWhile_append_dropWhile isDigitC r2).symm
        · intro c hc; rw [hw1] at hc; exact List.mem_takeWhile_imp hc
        · intro c hc; rw [hd1] at hc; exact List.mem_takeWhile_imp hc
        · intro a as ha
          apply dropWhile_head_false isDigitC r2 a as
          rw [← hd2]; exact ha

theorem matchKwNum_of_parts (kw w d r : List Char)
    (hw : w ≠ []) (hd : d ≠ [])
    (hws : ∀ c ∈ w, wsChar c = true) (hds : ∀ c ∈ d, isDigitC c = true)
    (hr : ∀ a as, r = a :: as → isDigitC a = false) :
    matchKwNum kw (kw ++ (w ++ (d ++ r))) = some (kw ++ w ++ d, r) := by
  have h1 : (w ++ (d ++ r)).takeWhile wsChar = w
      ∧ (w ++ (d ++ r)).dropWhile wsChar = d ++ r := by
    apply takeWhile_run
    · exact hws
    · intro a as ha
      cases d with
      | nil => exact absurd rfl hd
      | cons d0 ds =>
        rw [List.cons_append] at ha
        have ha0 : d0 = a := by injection ha with h' _
        subst ha0
        exact digit_not_ws d0 (hds d0 (List.mem_cons_self _ _))
  have h2 : takeRun1 wsChar (w ++ (d ++ r)) = some (w, d ++ r) := by
    rw [takeRun1, h1.1, h1.2]
    cases w with
    | nil => exact absurd rfl hw
    | cons w0 ws => rfl
  have h3tw : (d ++ r).takeWhile isDigitC = d ∧ (d ++ r).dropWhile isDigitC = r :=
    takeWhile_run isDigitC d r hds hr
  have h3 : takeRun1 isDigitC (d ++ r) = some (d, r) := by
    rw [takeRun1, h3tw.1, h3tw.2]
    cases d with
    | nil => exact absurd rfl hd
    | cons d0 ds => rfl
  simp only [matchKwNum, stripPrefixStr_append, h2, h3]

theorem matchPatternAt_isSome_inv (l : List Char)
    (h : (matchPatternAt l).isSome = true) :
    (matchKwNum kwSECTION l).isSome = true ∨ (matchKwNum kwSection l).isSome = true
    ∨ (matchKwNum kwCLAUSE l).isSome = true ∨ (matchKwNum kwClause l).isSome = true := by
  rw [matchPatternAt] at h
  split at h
  next r heq => exact Or.inl (by rw [heq]; rfl)
  next heq1 =>
    split at h
    next r heq => exact Or.inr (Or.inl (by rw [heq]; rfl))
    next heq2 =>
      split at h
      next r heq => exact Or.inr (Or.inr (Or.inl (by rw [heq]; rfl)))
      next heq3 => exact Or.inr (Or.inr (Or.inr h))

theorem matchPatternAt_isSome_of_alt (l : List Char)
    (h : (matchKwNum kwSECTION l).isSome = true ∨ (matchKwNum kwSection l).isSome = true
       ∨ (matchKwNum kwCLAUSE l).isSome = true ∨ (matchKwNum kwClause l).isSome = true) :
    (matchPatternAt l).isSome = true := by
  rw [matchPatternAt]
  split
  next r heq => rfl
  next heq1 =>
    split
    next r heq => rfl
    next heq2 =>
      split
      next r heq => rfl
      next heq3 =>
        rcases h with h | h | h | h
        · rw [heq1] at h; simp at h
        · rw [heq2] at h; simp at h
        · rw [heq3] at h; simp at h
        · exact h

theorem markerSeed_matchPatternAt (b : List Char) (h : MarkerSeed b) :
    (matchPatternAt b).isSome = true := by
  obtain ⟨kw, w, d, r, hkw, hb, hw, hd, hws, hds, hr⟩ := h
  subst hb
  have hm := matchKwNum_of_parts kw w d r hw hd hws hds hr
  apply matchPatternAt_isSome_of_alt
  rcases hkw with rfl | rfl | rfl | rfl
  · exact Or.inl (by rw [hm]; rfl)
  · exact Or.inr (Or.inl (by rw [hm]; rfl))
  · exact Or.inr (Or.inr (Or.inl (by rw [hm]; rfl)))
  · exact Or.inr (Or.inr (Or.inr (by rw [hm]; rfl)))

theorem matchPatternAt_markerSeed (b : List Char)
    (h : (matchPatternAt b).isSome = true) : MarkerSeed b := by
  rcases matchPatternAt_isSome_inv b h with h1 | h1 | h1 | h1
  · obtain ⟨⟨m, r⟩, hm⟩ := Option.isSome_iff_exists.mp h1
    obtain ⟨w, d, _, hb, hw, hd, hws, hds, hr⟩ := matchKwNum_some_decomp _ _ _ _ hm
    exact ⟨kwSECTION, w, d, r, Or.inl rfl, hb, hw, hd, hws, hds, hr⟩
  · obtain ⟨⟨m, r⟩, hm⟩ := Option.isSome_iff_exists.mp h1
    obtain ⟨w, d, _, hb, hw, hd, hws, hds, hr⟩ := matchKwNum_some_decomp _ _ _ _ hm
    exact ⟨kwSection, w, d, r, Or.inr (Or.inl rfl), hb, hw, hd, hws, hds, hr⟩
  · obtain ⟨⟨m, r⟩, hm⟩ := Option.isSome_iff_exists.mp h1
    obtain ⟨w, d, _, hb, hw, hd, hws, hds, hr⟩ := matchKwNum_some_decomp _ _ _ _ hm
    exact ⟨kwCLAUSE, w, d, r, Or.inr (Or.inr (Or.inl rfl)), hb, hw, hd, hws, hds, hr⟩
  · obtain ⟨⟨m, r⟩, hm⟩ := Option.isSome_iff_exists.mp h1
    obtain ⟨w, d, _, hb, hw, hd, hws, hds, hr⟩ := matchKwNum_some_decomp _ _ _ _ hm
    exact ⟨kwClause, w, d, r, Or.inr (Or.inr (Or.inr rfl)), hb, hw, hd, hws, hds, hr⟩

theorem markerSeed_append (b q : List Char) (h : MarkerSeed b) :
    MarkerSeed (b ++ '\n' :: q) := by
  obtain ⟨kw, w, d, r, hkw, hb, hw, hd, hws, hds, hr⟩ := h
  refine ⟨kw, w, d, r ++ '\n' :: q, hkw, ?_, hw, hd, hws, hds, ?_⟩
  · rw [hb]; simp [List.append_assoc]
  · intro a as ha
    cases r with
    | nil =>
      rw [List.nil_append] at ha
      have ha0 : '\n' = a := by injection ha with h' _
      rw [← ha0]
      decide
    | cons a0 as0 =>
      rw [List.cons_append] at ha
      have ha0 : a0 = a := by injection ha with h' _
      subst ha0
      exact hr a0 as0 rfl

theorem dropTrail_append (p : Char → Bool) :
    ∀ (m r : List Char), m ≠ [] → (∀ x, m.getLast? = some x → p x = false) →
      dropTrail p (m ++ r) = m ++ dropTrail p r := by
  intro m
  induction m with
  | nil => intro r hm _; exact absurd rfl hm
  | cons a m' ih =>
    intro r _ hlast
    cases hm' : m' with
    | nil =>
      subst hm'
      have ha : p a = false := hlast a (by simp)
      rw [List.cons_append, List.nil_append, dropTrail]
      cases hdr : dropTrail p r with
      | nil => simp [ha]
      | cons x xs => rfl
    | cons b' bs =>
      subst hm'
      have hlast' : ∀ x, (b' :: bs).getLast? = some x → p x = false := by
        intro x hx
        apply hlast
        rw [List.getLast?_cons_cons]
        exact hx
      have hih := ih r (by simp) hlast'
      rw [List.cons_append, dropTrail, hih, List.cons_append]
      rfl

theorem markerSeed_pyStrip (b : List Char) (h : MarkerSeed b) :
    MarkerSeed (pyStrip b) := by
  obtain ⟨kw, w, d, r, hkw, hb, hw, hd, hws, hds, hr⟩ := h
  have hkw0 : ∃ k0 ks, kw = k0 :: ks ∧ wsChar k0 = false := by
    rcases hkw with rfl | rfl | rfl | rfl
    · exact ⟨'S', "ECTION".data, by decide, by decide⟩
    · exact ⟨'S', "ection".data, by decide, by decide⟩
    · exact ⟨'C', "LAUSE".data, by decide, by decide⟩
    · exact ⟨'C', "lause".data, by decide, by decide⟩
  obtain ⟨k0, ks, hkc, hk0⟩ := hkw0
  have hdrop : b.dropWhile wsChar = b := by
    rw [hb, hkc, List.cons_append, List.dropWhile_cons, hk0]
    simp
  have hbM : b = (kw ++ (w ++ d)) ++ r := by
    rw [hb]; simp [List.append_assoc]
  have hMne : kw ++ (w ++ d) ≠ [] := by
    rw [hkc]; simp
  have hMlast : ∀ x, ((kw ++ (w ++ d)).getLast? = some x) → wsChar x = false := by
    intro x hx
    have hwd : w ++ d ≠ [] := by
      intro habs
      exact hd (List.append_eq_nil.mp habs).2
    rw [List.getLast?_append_of_ne_nil kw hwd] at hx
    rw [List.getLast?_append_of_ne_nil w hd] at hx
    obtain ⟨hdne, hxeq⟩ := List.mem_getLast?_eq_getLast hx
    have hxd : x ∈ d := by rw [hxeq]; exact List.getLast_mem hdne
    exact digit_not_ws x (hds x hxd)
  have hstrip : pyStrip b = (kw ++ (w ++ d)) ++ dropTrail wsChar r := by
    rw [pyStrip, hdrop, hbM]
    exact dropTrail_append wsChar (kw ++ (w ++ d)) r hMne hMlast
  refine ⟨kw, w, d, dropTrail wsChar r, hkw, ?_, hw, hd, hws, hds, ?_⟩
  · rw [hstrip]; simp [List.append_assoc]
  · intro a as ha
    have hpre := dropTrail_prefix wsChar r
    rw [ha] at hpre
    obtain ⟨tail, htail⟩ := hpre
    rw [List.cons_append] at htail
    exact hr a (as ++ tail) htail.symm

/-- Once the `_split_by_sections` buffer is seeded with a matched marker part,
every section it subsequently emits starts with a pattern match. -/
theorem assembleGo_seed_marked :
    ∀ (ps : List (List Char)) (b : List Char), MarkerSeed b →
      ∀ s ∈ assembleGo ps b, (matchPatternAt s).isSome = true := by
  intro ps
  induction ps with
  | nil =>
    intro b hb s hs
    rw [assembleGo] at hs
    by_cases hpb : pyStrip b ≠ []
    · rw [if_pos hpb] at hs
      have he := List.mem_singleton.mp hs
      subst he
      exact markerSeed_matchPatternAt _ (markerSeed_pyStrip b hb)
    · rw [if_neg hpb] at hs; simp at hs
  | cons p ps ih =>
    intro b hb s hs
    rw [assembleGo] at hs
    by_cases hm : (matchPatternAt p).isSome = true
    · rw [if_pos hm] at hs
      rcases List.mem_append.mp hs with h | h
      · by_cases hpb : pyStrip b ≠ []
        · rw [if_pos hpb] at h
          have he := List.mem_singleton.mp h
          subst he
          exact markerSeed_matchPatternAt _ (markerSeed_pyStrip b hb)
        · rw [if_neg hpb] at h; simp at h
      · exact ih p (matchPatternAt_markerSeed p hm) s h
    · rw [if_neg hm] at hs
      exact ih _ (markerSeed_append b p hb) s hs

/-- Whatever the initial buffer, every section after the first one emitted by
the `_split_by_sections` loop starts with a pattern match. -/
theorem assembleGo_tail_marked :
    ∀ (ps : List (List Char)) (b : List Char),
      ∀ s ∈ (assembleGo ps b).drop 1, (matchPatternAt s).isSome = true := by
  intro ps
  induction ps with
  | nil =>
    intro b s hs
    rw [assembleGo] at hs
    by_cases hpb : pyStrip b ≠ []
    · rw [if_pos hpb] at hs; simp at hs
    · rw [if_neg hpb] at hs; simp at hs
  | cons p ps ih =>
    intro b s hs
    rw [assembleGo] at hs
    by_cases hm : (matchPatternAt p).isSome = true
    · rw [if_pos hm] at hs
      have hseed := matchPatternAt_markerSeed p hm
      by_cases hpb : pyStrip b ≠ []
      · rw [if_pos hpb] at hs
        simp only [List.singleton_append, List.drop_succ_cons, List.drop_zero] at hs
        exact assembleGo_seed_marked ps p hseed s hs
      · rw [if_neg hpb] at hs
        rw [List.nil_append] at hs
        exact assembleGo_seed_marked ps p hseed s (List.mem_of_mem_drop hs)
    · rw [if_neg hm] at hs
      exact ih _ s hs

/-- C6 counterexample.  The source pattern has no word boundary and is not
case-insensitive: `"SUBSECTION 2 z"` contains no marker preceded by a word
boundary, yet the code splits inside the word and yields two sections; and
`"x sEcTiOn 1 y"` contains a mixed-case marker after a word boundary, yet the
code does not split at all. -/
theorem split_sections_counterexample :
    splitBySections "SUBSECTION 2 z".data = ["SUB".data, "SECTION 2\n z".data]
    ∧ splitBySections "SUBSECTION 2 z".data ≠ ["SUBSECTION 2 z".data]
    ∧ splitBySections "x sEcTiOn 1 y".data = ["x sEcTiOn 1 y".data] := by
  decide

/-- C6 amended.  `_split_by_sections` partitions the text at substrings
matching the keyword in one of the four exact casings `SECTION`, `Section`,
`CLAUSE`, `Clause` (no other casing, no word-boundary requirement) followed
by whitespace and one or more digits; each matched marker starts a new
section and is retained at the start of that section: every section after the
first begins with a full pattern match. -/
theorem split_sections_marker_start (text s : List Char)
    (hs : s ∈ (splitBySections text).drop 1) :
    (matchPatternAt s).isSome = true :=
  assembleGo_tail_marked (reSplit text) [] s hs

/-- C6 witness: on `"x Section 1 y"` the second emitted section is
`"Section 1\n y"`, which indeed starts with a pattern match. -/
theorem split_sections_marker_start_witness :
    ("Section 1\n y".data ∈ (splitBySections "x Section 1 y".data).drop 1)
    ∧ (matchPatternAt "Section 1\n y".data).isSome = true :=
  ⟨by decide,
    split_sections_marker_start "x Section 1 y".data "Section 1\n y".data (by decide)⟩

/-! ## Metadata-aliasing lemmas -/

theorem dictGet_dictSet_update (k v : List Char) :
    ∀ d : Dict, d.any (fun p => p.1 = k) = true →
      dictGet (d.map (fun p => if p.1 = k then (k, v) else p)) k = some v := by
  intro d
  induction d with
  | nil => intro hany; simp at hany
  | cons p ps ih =>
    intro hany
    by_cases hp : p.1 = k
    · rw [List.map_cons, if_pos hp, dictGet, List.find?]
      simp
    · rw [List.map_cons, if_neg hp, dictGet, List.find?]
      have hpf : (decide (p.1 = k)) = false := by simp [hp]
      rw [hpf]
      have hany' : ps.any (fun p => p.1 = k) = true := by
        rcases List.any_eq_true.mp hany with ⟨q, hq, hqk⟩
        rcases List.mem_cons.mp hq with rfl | hq'
        · simp [hp] at hqk
        · exact List.any_eq_true.mpr ⟨q, hq', hqk⟩
      exact ih hany'

theorem dictGet_dictSet_append (k v : List Char) :
    ∀ d : Dict, d.any (fun p => p.1 = k) = false →
      dictGet (d ++ [(k, v)]) k = some v := by
  intro d
  induction d with
  | nil => simp [dictGet, List.find?]
  | cons p ps ih =>
    intro hany
    rw [List.any_cons] at hany
    have hp : (decide (p.1 = k)) = false := by
      cases hd : decide (p.1 = k)
      · rfl
      · rw [hd] at hany; simp at hany
    rw [List.cons_append, dictGet, List.find?, hp]
    apply ih
    cases hps : ps.any (fun p => p.1 = k)
    · rfl
    · rw [hps] at hany; simp at hany

/-- Python `d[k] = v` followed by `d.get(k)` returns `v`. -/
theorem dictGet_dictSet (d : Dict) (k v : List Char) :
    dictGet (dictSet d k v) k = some v := by
  rw [dictSet]
  by_cases hany : d.any (fun p => p.1 = k) = true
  · rw [if_pos hany]
    exact dictGet_dictSet_update k v d hany
  · rw [if_neg hany]
    apply dictGet_dictSet_append
    cases hd : d.any (fun p => p.1 = k)
    · rfl
    · exact absurd hd hany

theorem heapGet_heapSetKey (h : Heap) (ref : Nat) (k v : List Char)
    (href : ref < h.length) :
    heapGet (heapSetKey h ref k v) ref = dictSet (heapGet h ref) k v := by
  rw [heapSetKey, heapGet, List.get?_eq_getElem?, List.getElem?_set_self']
  simp [href]

/-- Every chunk returned by `chunk_text` carries the caller's metadata value
(the same dictionary reference). -/
theorem chunkText_metadata (tok : List Char → Nat) (chunkSize chunkOverlap : Nat)
    (text : List Char) (meta : μ) :
    ∀ c ∈ chunkText tok chunkSize chunkOverlap text meta, c.metadata = meta := by
  intro c hc
  obtain ⟨t, _, hc2⟩ := List.mem_map.mp hc
  rw [← hc2]

/-- C10.  `add_user_documents` / `add_general_documents` set
`metadata["source"]` *in place* on the caller-supplied dictionary (no copy is
made), and `chunk_text` attaches that same dictionary reference to every
chunk it emits — so after the call, reading `"source"` through the metadata
reference of *any previously created chunk* yields `"user"` (resp.
`"general"`). -/
theorem manager_add_mutates_shared_metadata (embedD : List Char → Vec)
    (rowCommitOk : Bool) (st st2 : MgrState) (tok : List Char → Nat)
    (chunkSize chunkOverlap : Nat) (text : List Char) (mref : Nat)
    (h1 : mref < st.heap.length) (h2 : mref < st2.heap.length) :
    (∀ c ∈ chunkText tok chunkSize chunkOverlap text mref,
      dictGet
        (heapGet (managerAddUserDocuments embedD rowCommitOk st
            (chunkText tok chunkSize chunkOverlap text mref) mref).1.heap
          c.metadata)
        "source".data = some "user".data)
    ∧ (∀ c ∈ chunkText tok chunkSize chunkOverlap text mref,
      dictGet
        (heapGet (managerAddGeneralDocuments embedD st2
            (chunkText tok chunkSize chunkOverlap text mref) mref).1.heap
          c.metadata)
        "source".data = some "general".data) := by
  constructor
  · intro c hc
    rw [chunkText_metadata tok chunkSize chunkOverlap text mref c hc]
    have hheap : (managerAddUserDocuments embedD rowCommitOk st
        (chunkText tok chunkSize chunkOverlap text mref) mref).1.heap
        = heapSetKey st.heap mref "source".data "user".data := rfl
    rw [hheap, heapGet_heapSetKey st.heap mref _ _ h1]
    exact dictGet_dictSet _ _ _
  · intro c hc
    rw [chunkText_metadata tok chunkSize chunkOverlap text mref c hc]
    have hheap : (managerAddGeneralDocuments embedD st2
        (chunkText tok chunkSize chunkOverlap text mref) mref).1.heap
        = heapSetKey st2.heap mref "source".data "general".data := rfl
    rw [hheap, heapGet_heapSetKey st2.heap mref _ _ h2]
    exact dictGet_dictSet _ _ _

/-- C10 witness: one heap cell holding an empty dict, one chunk from
`chunk_text`; after `add_user_documents` the chunk's metadata reference reads
`source = "user"`. -/
theorem manager_add_mutates_shared_metadata_witness :
    ((⟨"t".data, 0⟩ : ChunkD Nat) ∈ chunkText lenTok 1 5 "t".data 0)
    ∧ dictGet
        (heapGet (managerAddUserDocuments (fun _ => [0]) true ⟨[[]], emptyEph, emptyPG⟩
            (chunkText lenTok 1 5 "t".data 0) 0).1.heap
          ((⟨"t".data, 0⟩ : ChunkD Nat).metadata))
        "source".data = some "user".data :=
  ⟨by decide,
    (manager_add_mutates_shared_metadata (fun _ => [0]) true
        ⟨[[]], emptyEph, emptyPG⟩ ⟨[[]], emptyEph, emptyPG⟩ lenTok 1 5 "t".data 0
        (by decide) (by decide)).1
      ⟨"t".data, 0⟩ (by decide)⟩
